import Mathlib

/-!
Verification of the header-section parser in src/headers.rs.

The Rust code is built on nom streaming combinators over byte slices.
We embed bytes as natural numbers (their u8 values) and parser results
as a three-way outcome mirroring nom IResult: success with the unconsumed
remainder, Incomplete (more bytes may resolve the parse), or Error
(structural failure).  Each Lean definition below translates one Rust
function or one nom combinator used by the source.
-/

namespace TestHeaders

/-- A byte, embedded as its numeric value. -/
abbrev Byte := Nat

/-- Outcome of a parser, mirroring nom IResult: success carries the
unconsumed rest of the input and the produced value; incomplete means more
input is needed; error is a hard structural failure. -/
inductive PResult (α : Type) where
  | ok : List Byte → α → PResult α
  | incomplete : PResult α
  | error : PResult α
  deriving DecidableEq, Repr

/-- Header name record from the source: raw bytes plus a flags field. -/
structure Name where
  name : List Byte
  flags : Byte
  deriving DecidableEq, Repr

/-- Header value record from the source: raw bytes plus a flags field. -/
structure Value where
  value : List Byte
  flags : Byte
  deriving DecidableEq, Repr

/-- One parsed header: an owned (name, value) pair. -/
structure Header where
  name : Name
  value : Value
  deriving DecidableEq, Repr

/-- Horizontal whitespace byte: ASCII space (32) or tab (9).  This is the
character class used by nom space0 and space1. -/
def isSpaceTab (c : Byte) : Bool := c == 32 || c == 9

/-- nom bytes::streaming::take_till: consume bytes until the predicate
holds; if the end of input is reached first the result is incomplete. -/
def take_till (p : Byte → Bool) : List Byte → PResult (List Byte)
  | [] => PResult.incomplete
  | b :: r =>
    if p b then PResult.ok (b :: r) []
    else
      match take_till p r with
      | PResult.ok rest taken => PResult.ok rest (b :: taken)
      | PResult.incomplete => PResult.incomplete
      | PResult.error => PResult.error

/-- nom character::streaming::space0: consume zero or more space or tab
bytes; if the whole input is whitespace (or empty) the result is
incomplete, since more whitespace could still arrive. -/
def space0 : List Byte → PResult (List Byte)
  | [] => PResult.incomplete
  | b :: r =>
    if isSpaceTab b then
      match space0 r with
      | PResult.ok rest taken => PResult.ok rest (b :: taken)
      | PResult.incomplete => PResult.incomplete
      | PResult.error => PResult.error
    else PResult.ok (b :: r) []

/-- nom character::streaming::space1: like space0 but the first byte must
be whitespace, otherwise a hard error. -/
def space1 : List Byte → PResult (List Byte)
  | [] => PResult.incomplete
  | b :: r =>
    if isSpaceTab b then
      match space0 r with
      | PResult.ok rest taken => PResult.ok rest (b :: taken)
      | PResult.incomplete => PResult.incomplete
      | PResult.error => PResult.error
    else PResult.error

/-- nom bytes::streaming::tag: match a literal byte sequence; if the input
is a proper prefix of the tag the result is incomplete. -/
def tag (t : List Byte) (input : List Byte) : PResult (List Byte) :=
  if t.isPrefixOf input then PResult.ok (input.drop t.length) t
  else if input.isPrefixOf t then PResult.incomplete
  else PResult.error

/-- nom bytes::complete::tag: match a literal byte sequence; a short
input is a hard error, never incomplete. -/
def complete_tag (t : List Byte) (input : List Byte) : PResult (List Byte) :=
  if t.isPrefixOf input then PResult.ok (input.drop t.length) t
  else PResult.error

/-- Rust complete_eol: one complete end-of-line byte sequence, trying in
order LF CR CR LF, then CR LF, then LF, then CR (alt over complete tags,
which never signal incomplete, so the next alternative is tried on any
failure). -/
def complete_eol (input : List Byte) : PResult (List Byte) :=
  match complete_tag [10, 13, 13, 10] input with
  | PResult.ok rest o => PResult.ok rest o
  | _ =>
    match complete_tag [13, 10] input with
    | PResult.ok rest o => PResult.ok rest o
    | _ =>
      match complete_tag [10] input with
      | PResult.ok rest o => PResult.ok rest o
      | _ => complete_tag [13] input

/-- Rust eol: a complete end of line that is guaranteed not to start a
folded continuation, via peek(not(space1)) on the remainder. -/
def eol (input : List Byte) : PResult (List Byte) :=
  match complete_eol input with
  | PResult.ok rest e =>
    match space1 rest with
    | PResult.ok _ _ => PResult.error
    | PResult.incomplete => PResult.incomplete
    | PResult.error => PResult.ok rest e
  | PResult.incomplete => PResult.incomplete
  | PResult.error => PResult.error

/-- Rust is_eol: the byte is CR or LF. -/
def is_eol (c : Byte) : Bool := c == 13 || c == 10

/-- Rust folding: an end of line followed by at least one horizontal
whitespace byte (the folded continuation marker). -/
def folding (input : List Byte) : PResult (List Byte × List Byte) :=
  match complete_eol input with
  | PResult.ok rest e =>
    match space1 rest with
    | PResult.ok rest2 w => PResult.ok rest2 (e, w)
    | PResult.incomplete => PResult.incomplete
    | PResult.error => PResult.error
  | PResult.incomplete => PResult.incomplete
  | PResult.error => PResult.error

/-- Rust folding_or_eol: try folding first; on any non-success (including
incomplete, because the source matches only on Ok) fall back to eol. -/
def folding_or_eol (input : List Byte) : PResult (List Byte × Option (List Byte)) :=
  match folding input with
  | PResult.ok rest ew => PResult.ok rest (ew.1, some ew.2)
  | _ =>
    match eol input with
    | PResult.ok rest e => PResult.ok rest (e, none)
    | PResult.incomplete => PResult.incomplete
    | PResult.error => PResult.error

/-- Rust value_bytes: one physical line of value content (bytes up to the
next CR or LF) together with its terminator classification. -/
def value_bytes (input : List Byte) :
    PResult (List Byte × (List Byte × Option (List Byte))) :=
  match take_till is_eol input with
  | PResult.ok rest vb =>
    match folding_or_eol rest with
    | PResult.ok rest2 t => PResult.ok rest2 (vb, t)
    | PResult.incomplete => PResult.incomplete
    | PResult.error => PResult.error
  | PResult.incomplete => PResult.incomplete
  | PResult.error => PResult.error

/-- Loop body of Rust value: keep consuming physical lines while the
previous terminator was a fold, appending one space and then the bytes of
each continuation line.  The extra fuel argument bounds the recursion; a
successful value_bytes step always consumes at least the terminator byte,
so with fuel exceeding the input length the zero-fuel branch is
unreachable. -/
def value_loop : Nat → List Byte → List Byte → PResult Value
  | 0, _, _ => PResult.error
  | fuel + 1, acc, i =>
    match value_bytes i with
    | PResult.ok rest vbt =>
      match vbt.2.2 with
      | none => PResult.ok rest ⟨acc ++ 32 :: vbt.1, 0⟩
      | some _ => value_loop fuel (acc ++ 32 :: vbt.1) rest
    | PResult.incomplete => PResult.incomplete
    | PResult.error => PResult.error

/-- Rust value: a complete header value including any folded
continuation lines merged with single spaces. -/
def value (input : List Byte) : PResult Value :=
  match value_bytes input with
  | PResult.ok rest vbt =>
    match vbt.2.2 with
    | none => PResult.ok rest ⟨vbt.1, 0⟩
    | some _ => value_loop (rest.length + 1) vbt.1 rest
  | PResult.incomplete => PResult.incomplete
  | PResult.error => PResult.error

/-- Rust separator: a colon followed by optional horizontal whitespace. -/
def separator (input : List Byte) : PResult (List Byte × List Byte) :=
  match tag [58] input with
  | PResult.ok rest c =>
    match space0 rest with
    | PResult.ok rest2 w => PResult.ok rest2 (c, w)
    | PResult.incomplete => PResult.incomplete
    | PResult.error => PResult.error
  | PResult.incomplete => PResult.incomplete
  | PResult.error => PResult.error

/-- Rust name: header name bytes up to (excluding) the colon, guarded by
not(space1) so a leading whitespace run that is resolved inside the buffer
is a hard error, while an unresolved one propagates incomplete. -/
def name (input : List Byte) : PResult Name :=
  match space1 input with
  | PResult.ok _ _ => PResult.error
  | PResult.incomplete => PResult.incomplete
  | PResult.error =>
    match take_till (fun c => c == 58) input with
    | PResult.ok rest n => PResult.ok rest ⟨n, 0⟩
    | PResult.incomplete => PResult.incomplete
    | PResult.error => PResult.error

/-- Rust header: name, separator, value in sequence. -/
def header (input : List Byte) : PResult Header :=
  match name input with
  | PResult.ok rest n =>
    match separator rest with
    | PResult.ok rest2 _ =>
      match value rest2 with
      | PResult.ok rest3 v => PResult.ok rest3 ⟨n, v⟩
      | PResult.incomplete => PResult.incomplete
      | PResult.error => PResult.error
    | PResult.incomplete => PResult.incomplete
    | PResult.error => PResult.error
  | PResult.incomplete => PResult.incomplete
  | PResult.error => PResult.error

/-- Loop of Rust headers.  The firstRest argument is the remainder bound
just after the first successfully parsed header: the source returns that
binding (not the loop variable) in its Incomplete arm, which this
translation reproduces faithfully.  As with value_loop, a successful
header step always consumes bytes, so sufficient fuel makes the zero-fuel
branch unreachable. -/
def headers_loop : Nat → List Byte → List Header → List Byte → PResult (List Header × Bool)
  | 0, _, _, _ => PResult.error
  | fuel + 1, firstRest, out, i =>
    match header i with
    | PResult.ok rest hd =>
      match complete_eol rest with
      | PResult.ok rest2 _ => PResult.ok rest2 (out ++ [hd], true)
      | _ => headers_loop fuel firstRest (out ++ [hd]) rest
    | PResult.incomplete => PResult.ok firstRest (out, false)
    | PResult.error => PResult.error

/-- Rust headers: parse one header, then repeatedly parse further headers,
checking after each one whether a complete end of line (the blank line
ending the section) follows. -/
def headers (input : List Byte) : PResult (List Header × Bool) :=
  match header input with
  | PResult.ok rest hd =>
    match complete_eol rest with
    | PResult.ok rest2 _ => PResult.ok rest2 ([hd], true)
    | _ => headers_loop (rest.length + 1) rest [hd] rest
  | PResult.incomplete => PResult.incomplete
  | PResult.error => PResult.error

/-! Syntactic description of well-formed header sections.  These
definitions follow the wording of the specification (a header is a name,
a colon, optional separator whitespace, a first value line and folded
continuation lines, each line ended by a terminator; the section ends
with a blank line).  They are used to state the quantified properties
about sections whose line terminators are all CR LF. -/

/-- The list is nonempty and its head satisfies the predicate. -/
def headHolds (p : Byte → Bool) : List Byte → Bool
  | [] => false
  | b :: _ => p b

/-- No byte of the list is CR or LF. -/
def noEol (l : List Byte) : Bool := l.all (fun b => !(is_eol b))

/-- No byte of the list is a colon. -/
def noColon (l : List Byte) : Bool := l.all (fun b => b != 58)

/-- The list is empty or its first byte is not horizontal whitespace. -/
def headNotWs (l : List Byte) : Bool :=
  match l with
  | [] => true
  | b :: _ => !(isSpaceTab b)

/-- Syntactic form of one header: name bytes, separator whitespace after
the colon, the first physical value line, and folded continuation lines,
each given as (leading whitespace run, line content). -/
structure SHeader where
  hname : List Byte
  sepWs : List Byte
  line1 : List Byte
  folds : List (List Byte × List Byte)
  deriving DecidableEq, Repr

/-- Well-formed folded continuation line: a nonempty horizontal
whitespace run, and content free of terminator bytes that does not begin
with further whitespace. -/
def wfFold (p : List Byte × List Byte) : Bool :=
  !(p.1.isEmpty) && p.1.all isSpaceTab && noEol p.2 && headNotWs p.2

/-- Well-formed header: the name holds no colon and no terminator byte
and does not begin with whitespace; the separator whitespace is
horizontal whitespace; the first value line holds no terminator byte and
does not begin with whitespace; every fold is well formed. -/
def wfSHeader (h : SHeader) : Bool :=
  noColon h.hname && noEol h.hname && headNotWs h.hname &&
  h.sepWs.all isSpaceTab && noEol h.line1 && headNotWs h.line1 &&
  h.folds.all wfFold

/-- The CR LF terminator bytes. -/
def CRLF : List Byte := [13, 10]

/-- Wire bytes of one folded continuation line, ended by CR LF. -/
def serFold (p : List Byte × List Byte) : List Byte := p.1 ++ p.2 ++ CRLF

/-- Wire bytes of a list of folded continuation lines. -/
def serFolds (fs : List (List Byte × List Byte)) : List Byte :=
  (fs.map serFold).flatten

/-- Wire bytes of one header, every line ended by CR LF. -/
def serSHeader (h : SHeader) : List Byte :=
  h.hname ++ 58 :: (h.sepWs ++ h.line1 ++ CRLF ++ serFolds h.folds)

/-- Wire bytes of a whole header section: the headers followed by the
blank-line terminator. -/
def serSection (hs : List SHeader) : List Byte :=
  (hs.map serSHeader).flatten ++ CRLF

/-- The logical value the parser is expected to produce for a header:
the first line joined to each continuation line content by exactly one
space. -/
def parsedValue (h : SHeader) : List Byte :=
  h.line1 ++ (h.folds.map (fun p => 32 :: p.2)).flatten

/-- The Header record the parser is expected to produce. -/
def parsedHeader (h : SHeader) : Header :=
  ⟨⟨h.hname, 0⟩, ⟨parsedValue h, 0⟩⟩

/-! Helper lemmas about the recognizers on decomposed inputs. -/

theorem noEol_mem (c : List Byte) (hc : noEol c = true) :
    ∀ x ∈ c, is_eol x = false := by
  intro x hx
  have h := List.all_eq_true.mp hc x hx
  simpa using h

theorem take_till_split (p : Byte → Bool) (c rest : List Byte)
    (hc : ∀ x ∈ c, p x = false) (hr : headHolds p rest = true) :
    take_till p (c ++ rest) = PResult.ok rest c := by
  induction c with
  | nil =>
    cases rest with
    | nil => simp [headHolds] at hr
    | cons b r =>
      have hb : p b = true := by simpa [headHolds] using hr
      simp [take_till, hb]
  | cons b c ih =>
    have hb : p b = false := hc b (by simp)
    have ih2 := ih (fun x hx => hc x (by simp [hx]))
    simp [take_till, hb, ih2]

theorem space0_split (ws rest : List Byte)
    (hw : ∀ x ∈ ws, isSpaceTab x = true)
    (hr : headHolds (fun b => !(isSpaceTab b)) rest = true) :
    space0 (ws ++ rest) = PResult.ok rest ws := by
  induction ws with
  | nil =>
    cases rest with
    | nil => simp [headHolds] at hr
    | cons b r =>
      have hb : isSpaceTab b = false := by simpa [headHolds] using hr
      simp [space0, hb]
  | cons w ws ih =>
    have hwv : isSpaceTab w = true := hw w (by simp)
    have ih2 := ih (fun x hx => hw x (by simp [hx]))
    simp [space0, hwv, ih2]

theorem space1_split (w : Byte) (ws rest : List Byte)
    (hw : isSpaceTab w = true) (hws : ∀ x ∈ ws, isSpaceTab x = true)
    (hr : headHolds (fun b => !(isSpaceTab b)) rest = true) :
    space1 (w :: (ws ++ rest)) = PResult.ok rest (w :: ws) := by
  simp [space1, hw, space0_split ws rest hws hr]

theorem space1_head_err (b : Byte) (r : List Byte) (hb : isSpaceTab b = false) :
    space1 (b :: r) = PResult.error := by
  simp [space1, hb]

theorem space1_err_of_headHolds (l : List Byte)
    (h : headHolds (fun x => !(isSpaceTab x)) l = true) :
    space1 l = PResult.error := by
  cases l with
  | nil => simp [headHolds] at h
  | cons b r => exact space1_head_err b r (by simpa [headHolds] using h)

theorem complete_eol_crlf (r : List Byte) :
    complete_eol (13 :: 10 :: r) = PResult.ok r CRLF := by
  simp [complete_eol, complete_tag, List.isPrefixOf, CRLF]

theorem complete_eol_head_err (b : Byte) (r : List Byte)
    (h13 : b ≠ 13) (h10 : b ≠ 10) :
    complete_eol (b :: r) = PResult.error := by
  have e13 : (13 == b) = false := by
    simp [Ne.symm h13]
  have e10 : (10 == b) = false := by
    simp [Ne.symm h10]
  simp [complete_eol, complete_tag, List.isPrefixOf, e13, e10]

theorem eol_split (rest : List Byte)
    (hr : headHolds (fun b => !(isSpaceTab b)) rest = true) :
    eol (13 :: 10 :: rest) = PResult.ok rest CRLF := by
  simp [eol, complete_eol_crlf, space1_err_of_headHolds rest hr]

theorem folding_or_eol_none (rest : List Byte)
    (hr : headHolds (fun b => !(isSpaceTab b)) rest = true) :
    folding_or_eol (13 :: 10 :: rest) = PResult.ok rest (CRLF, none) := by
  simp [folding_or_eol, folding, complete_eol_crlf,
    space1_err_of_headHolds rest hr, eol_split rest hr]

theorem folding_split (w : Byte) (ws rest : List Byte)
    (hw : isSpaceTab w = true) (hws : ∀ x ∈ ws, isSpaceTab x = true)
    (hr : headHolds (fun b => !(isSpaceTab b)) rest = true) :
    folding (13 :: 10 :: w :: (ws ++ rest)) =
      PResult.ok rest (CRLF, w :: ws) := by
  simp [folding, complete_eol_crlf, space1_split w ws rest hw hws hr]

theorem folding_or_eol_some (w : Byte) (ws rest : List Byte)
    (hw : isSpaceTab w = true) (hws : ∀ x ∈ ws, isSpaceTab x = true)
    (hr : headHolds (fun b => !(isSpaceTab b)) rest = true) :
    folding_or_eol (13 :: 10 :: w :: (ws ++ rest)) =
      PResult.ok rest (CRLF, some (w :: ws)) := by
  simp [folding_or_eol, folding_split w ws rest hw hws hr]

theorem value_bytes_none (c rest : List Byte) (hc : noEol c = true)
    (hr : headHolds (fun b => !(isSpaceTab b)) rest = true) :
    value_bytes (c ++ (13 :: 10 :: rest)) = PResult.ok rest (c, (CRLF, none)) := by
  have h1 : take_till is_eol (c ++ (13 :: 10 :: rest)) =
      PResult.ok (13 :: 10 :: rest) c :=
    take_till_split is_eol c (13 :: 10 :: rest) (noEol_mem c hc) rfl
  simp [value_bytes, h1, folding_or_eol_none rest hr]

theorem value_bytes_fold (c : List Byte) (w : Byte) (ws rest : List Byte)
    (hc : noEol c = true) (hw : isSpaceTab w = true)
    (hws : ∀ x ∈ ws, isSpaceTab x = true)
    (hr : headHolds (fun b => !(isSpaceTab b)) rest = true) :
    value_bytes (c ++ (13 :: 10 :: w :: (ws ++ rest))) =
      PResult.ok rest (c, (CRLF, some (w :: ws))) := by
  have h1 : take_till is_eol (c ++ (13 :: 10 :: w :: (ws ++ rest))) =
      PResult.ok (13 :: 10 :: w :: (ws ++ rest)) c :=
    take_till_split is_eol c (13 :: 10 :: w :: (ws ++ rest)) (noEol_mem c hc) rfl
  simp [value_bytes, h1, folding_or_eol_some w ws rest hw hws hr]

theorem headHolds_cons_append (c : List Byte) (b : Byte) (r : List Byte)
    (h : headNotWs c = true) (hb : isSpaceTab b = false) :
    headHolds (fun x => !(isSpaceTab x)) (c ++ b :: r) = true := by
  cases c with
  | nil => simpa [headHolds] using hb
  | cons a c => simpa [headHolds, headNotWs] using h

theorem wfFold_parts (p : List Byte × List Byte) (h : wfFold p = true) :
    p.1 ≠ [] ∧ (∀ x ∈ p.1, isSpaceTab x = true) ∧ noEol p.2 = true ∧
      headNotWs p.2 = true := by
  simp only [wfFold, Bool.and_eq_true] at h
  obtain ⟨⟨⟨h1, h2⟩, h3⟩, h4⟩ := h
  refine ⟨?_, ?_, h3, h4⟩
  · simpa using h1
  · exact fun x hx => List.all_eq_true.mp h2 x hx

theorem value_loop_ser (fs : List (List Byte × List Byte)) :
    ∀ (fuel : Nat) (acc c rest : List Byte),
      (∀ p ∈ fs, wfFold p = true) → noEol c = true →
      headHolds (fun b => !(isSpaceTab b)) rest = true →
      (c ++ (13 :: 10 :: (serFolds fs ++ rest))).length < fuel →
      value_loop fuel acc (c ++ (13 :: 10 :: (serFolds fs ++ rest))) =
        PResult.ok rest
          ⟨acc ++ 32 :: (c ++ (fs.map (fun p => 32 :: p.2)).flatten), 0⟩ := by
  induction fs with
  | nil =>
    intro fuel acc c rest _ hc hr hlen
    cases fuel with
    | zero => exact absurd hlen (Nat.not_lt_zero _)
    | succ f =>
      have hvb : value_bytes (c ++ (13 :: 10 :: rest)) =
          PResult.ok rest (c, (CRLF, none)) := value_bytes_none c rest hc hr
      simp [value_loop, serFolds, hvb]
  | cons f fs ih =>
    intro fuel acc c rest hwf hc hr hlen
    cases fuel with
    | zero => exact absurd hlen (Nat.not_lt_zero _)
    | succ fl =>
      obtain ⟨f1, f2⟩ := f
      obtain ⟨hne, hws, hno, hhead⟩ := wfFold_parts (f1, f2) (hwf (f1, f2) (by simp))
      cases f1 with
      | nil => exact absurd rfl hne
      | cons w ws =>
        have hw : isSpaceTab w = true := hws w (by simp)
        have hws2 : ∀ x ∈ ws, isSpaceTab x = true := fun x hx => hws x (by simp [hx])
        have hr2 : headHolds (fun b => !(isSpaceTab b))
            (f2 ++ (13 :: 10 :: (serFolds fs ++ rest))) = true := by
          have := headHolds_cons_append f2 13 (10 :: (serFolds fs ++ rest)) hhead (by decide)
          simpa using this
        have hshape : c ++ (13 :: 10 :: (serFolds ((w :: ws, f2) :: fs) ++ rest)) =
            c ++ (13 :: 10 :: w :: (ws ++ (f2 ++ (13 :: 10 :: (serFolds fs ++ rest))))) := by
          simp [serFolds, serFold, CRLF]
        have hvb := value_bytes_fold c w (ws)
          (f2 ++ (13 :: 10 :: (serFolds fs ++ rest))) hc hw hws2 hr2
        have ihx := ih fl (acc ++ 32 :: c) f2 rest
          (fun p hp => hwf p (by simp [hp])) hno hr ?_
        · rw [hshape]
          rw [show c ++ (13 :: 10 :: w :: (ws ++ (f2 ++ (13 :: 10 :: (serFolds fs ++ rest))))) =
              c ++ (13 :: 10 :: w :: (ws ++ (f2 ++ (13 :: 10 :: (serFolds fs ++ rest)))))
            from rfl]
          simp only [value_loop, hvb]
          rw [ihx]
          simp
        · have hlen2 := hlen
          simp only [hshape, List.length_append, List.length_cons] at hlen2 ⊢
          omega

theorem value_ser (line1 : List Byte) (fs : List (List Byte × List Byte))
    (rest : List Byte) (hl : noEol line1 = true)
    (hf : ∀ p ∈ fs, wfFold p = true)
    (hr : headHolds (fun b => !(isSpaceTab b)) rest = true) :
    value (line1 ++ (13 :: 10 :: (serFolds fs ++ rest))) =
      PResult.ok rest ⟨line1 ++ (fs.map (fun p => 32 :: p.2)).flatten, 0⟩ := by
  cases fs with
  | nil =>
    have hvb : value_bytes (line1 ++ (13 :: 10 :: rest)) =
        PResult.ok rest (line1, (CRLF, none)) := value_bytes_none line1 rest hl hr
    simp [value, serFolds, hvb]
  | cons f fs2 =>
    obtain ⟨f1, f2⟩ := f
    obtain ⟨hne, hws, hno, hhead⟩ := wfFold_parts (f1, f2) (hf (f1, f2) (by simp))
    cases f1 with
    | nil => exact absurd rfl hne
    | cons w ws =>
      have hw : isSpaceTab w = true := hws w (by simp)
      have hws2 : ∀ x ∈ ws, isSpaceTab x = true := fun x hx => hws x (by simp [hx])
      have hr2 : headHolds (fun b => !(isSpaceTab b))
          (f2 ++ (13 :: 10 :: (serFolds fs2 ++ rest))) = true := by
        have := headHolds_cons_append f2 13 (10 :: (serFolds fs2 ++ rest)) hhead (by decide)
        simpa using this
      have hvb := value_bytes_fold line1 w ws
        (f2 ++ (13 :: 10 :: (serFolds fs2 ++ rest))) hl hw hws2 hr2
      have hloop := value_loop_ser fs2
        ((f2 ++ (13 :: 10 :: (serFolds fs2 ++ rest))).length + 1)
        line1 f2 rest (fun p hp => hf p (by simp [hp])) hno hr (Nat.lt_succ_self _)
      have hshape : line1 ++ (13 :: 10 :: (serFolds ((w :: ws, f2) :: fs2) ++ rest)) =
          line1 ++ (13 :: 10 :: w :: (ws ++ (f2 ++ (13 :: 10 :: (serFolds fs2 ++ rest))))) := by
        simp [serFolds, serFold, CRLF]
      rw [hshape]
      simp only [value, hvb]
      rw [hloop]
      simp

theorem noColon_mem (c : List Byte) (hc : noColon c = true) :
    ∀ x ∈ c, (x == 58) = false := by
  intro x hx
  have h := List.all_eq_true.mp hc x hx
  simpa using h

theorem name_split (hname : List Byte) (r : List Byte)
    (h1 : noColon hname = true) (h2 : headNotWs hname = true) :
    name (hname ++ 58 :: r) = PResult.ok (58 :: r) ⟨hname, 0⟩ := by
  have hsp : space1 (hname ++ 58 :: r) = PResult.error :=
    space1_err_of_headHolds _ (headHolds_cons_append hname 58 r h2 (by decide))
  have htt : take_till (fun c => c == 58) (hname ++ 58 :: r) =
      PResult.ok (58 :: r) hname :=
    take_till_split _ hname (58 :: r) (noColon_mem hname h1) rfl
  simp [name, hsp, htt]

theorem separator_split (sepWs rest : List Byte)
    (hw : ∀ x ∈ sepWs, isSpaceTab x = true)
    (hr : headHolds (fun b => !(isSpaceTab b)) rest = true) :
    separator (58 :: (sepWs ++ rest)) = PResult.ok rest ([58], sepWs) := by
  have htag : tag [58] (58 :: (sepWs ++ rest)) =
      PResult.ok (sepWs ++ rest) [58] := by
    simp [tag, List.isPrefixOf]
  simp [separator, htag, space0_split sepWs rest hw hr]

theorem wfSHeader_parts (h : SHeader) (hwf : wfSHeader h = true) :
    noColon h.hname = true ∧ noEol h.hname = true ∧ headNotWs h.hname = true ∧
    (∀ x ∈ h.sepWs, isSpaceTab x = true) ∧ noEol h.line1 = true ∧
    headNotWs h.line1 = true ∧ (∀ p ∈ h.folds, wfFold p = true) := by
  simp only [wfSHeader, Bool.and_eq_true] at hwf
  obtain ⟨⟨⟨⟨⟨⟨h1, h2⟩, h3⟩, h4⟩, h5⟩, h6⟩, h7⟩ := hwf
  exact ⟨h1, h2, h3, fun x hx => List.all_eq_true.mp h4 x hx, h5, h6,
    fun p hp => List.all_eq_true.mp h7 p hp⟩

theorem header_ser (h : SHeader) (rest : List Byte)
    (hwf : wfSHeader h = true)
    (hr : headHolds (fun b => !(isSpaceTab b)) rest = true) :
    header (serSHeader h ++ rest) = PResult.ok rest (parsedHeader h) := by
  obtain ⟨h1, h2, h3, h4, h5, h6, h7⟩ := wfSHeader_parts h hwf
  have hr2 : headHolds (fun b => !(isSpaceTab b))
      (h.line1 ++ (13 :: 10 :: (serFolds h.folds ++ rest))) = true := by
    have := headHolds_cons_append h.line1 13 (10 :: (serFolds h.folds ++ rest))
      h6 (by decide)
    simpa using this
  have hn := name_split h.hname
    (h.sepWs ++ (h.line1 ++ (13 :: 10 :: (serFolds h.folds ++ rest)))) h1 h3
  have hsep := separator_split h.sepWs
    (h.line1 ++ (13 :: 10 :: (serFolds h.folds ++ rest))) h4 hr2
  have hv := value_ser h.line1 h.folds rest h5 h7 hr
  have hshape : serSHeader h ++ rest =
      h.hname ++ 58 :: (h.sepWs ++ (h.line1 ++ (13 :: 10 ::
        (serFolds h.folds ++ rest)))) := by
    simp [serSHeader, CRLF]
  rw [hshape]
  simp [header, hn, hsep, hv, parsedHeader, parsedValue]

theorem headHolds_header_start (h : SHeader) (r : List Byte)
    (hwf : wfSHeader h = true) :
    headHolds (fun x => !(isSpaceTab x)) (serSHeader h ++ r) = true := by
  obtain ⟨-, -, h3, -, -, -, -⟩ := wfSHeader_parts h hwf
  cases hn : h.hname with
  | nil => simp [serSHeader, hn, headHolds, isSpaceTab]
  | cons a as =>
    have ha : isSpaceTab a = false := by
      rw [hn] at h3
      simpa [headNotWs] using h3
    simp [serSHeader, hn, headHolds, ha]

theorem complete_eol_header_start (h : SHeader) (r : List Byte)
    (hwf : wfSHeader h = true) :
    complete_eol (serSHeader h ++ r) = PResult.error := by
  obtain ⟨-, h2, -, -, -, -, -⟩ := wfSHeader_parts h hwf
  cases hn : h.hname with
  | nil =>
    rw [show serSHeader h ++ r =
        58 :: (h.sepWs ++ (h.line1 ++ (13 :: 10 :: (serFolds h.folds ++ r))))
      from by simp [serSHeader, hn, CRLF]]
    exact complete_eol_head_err 58 _ (by decide) (by decide)
  | cons a as =>
    have ha : is_eol a = false := noEol_mem h.hname h2 a (by rw [hn]; simp)
    simp only [is_eol, Bool.or_eq_false_iff, beq_eq_false_iff_ne] at ha
    rw [show serSHeader h ++ r =
        a :: (as ++ 58 :: (h.sepWs ++ (h.line1 ++ (13 :: 10 ::
          (serFolds h.folds ++ r)))))
      from by simp [serSHeader, hn, CRLF]]
    exact complete_eol_head_err a _ ha.1 ha.2

theorem headers_loop_ser (hs : List SHeader) :
    ∀ (fuel : Nat) (firstRest : List Byte) (out : List Header) (T : List Byte),
      hs ≠ [] → (∀ h ∈ hs, wfSHeader h = true) →
      ((hs.map serSHeader).flatten ++ (13 :: 10 :: T)).length < fuel →
      headers_loop fuel firstRest out
          ((hs.map serSHeader).flatten ++ (13 :: 10 :: T)) =
        PResult.ok T (out ++ hs.map parsedHeader, true) := by
  induction hs with
  | nil => intro _ _ _ _ hne _ _; exact absurd rfl hne
  | cons h hs2 ih =>
    intro fuel firstRest out T _ hwf hlen
    cases fuel with
    | zero => exact absurd hlen (Nat.not_lt_zero _)
    | succ fl =>
      have hwf1 : wfSHeader h = true := hwf h (by simp)
      cases hs2 with
      | nil =>
        have hshape : (([h].map serSHeader).flatten ++ (13 :: 10 :: T)) =
            serSHeader h ++ (13 :: 10 :: T) := by simp
        have hh := header_ser h (13 :: 10 :: T) hwf1
          (by simp [headHolds, isSpaceTab])
        rw [hshape]
        simp only [headers_loop, hh, complete_eol_crlf]
        simp
      | cons h2 hs3 =>
        have hshape : (((h :: h2 :: hs3).map serSHeader).flatten ++
            (13 :: 10 :: T)) =
            serSHeader h ++ (((h2 :: hs3).map serSHeader).flatten ++
              (13 :: 10 :: T)) := by
          simp
        have htail : ((h2 :: hs3).map serSHeader).flatten ++ (13 :: 10 :: T) =
            serSHeader h2 ++ ((hs3.map serSHeader).flatten ++ (13 :: 10 :: T)) := by
          simp
        have hhead : headHolds (fun x => !(isSpaceTab x))
            (((h2 :: hs3).map serSHeader).flatten ++ (13 :: 10 :: T)) = true := by
          rw [htail]
          exact headHolds_header_start h2 _ (hwf h2 (by simp))
        have hh := header_ser h _ hwf1 hhead
        have hce : complete_eol (((h2 :: hs3).map serSHeader).flatten ++
            (13 :: 10 :: T)) = PResult.error := by
          rw [htail]
          exact complete_eol_header_start h2 _ (hwf h2 (by simp))
        have ihx := ih fl firstRest (out ++ [parsedHeader h]) T (by simp)
          (fun x hx => hwf x (by simp [hx])) ?_
        · rw [hshape]
          simp only [headers_loop, hh, hce]
          rw [ihx]
          simp
        · rw [hshape] at hlen
          have hlen3 : 3 ≤ (serSHeader h).length := by
            simp [serSHeader, CRLF, List.length_append]
            omega
          simp only [List.length_append] at hlen ⊢
          omega

theorem headers_ser (hs : List SHeader) (T : List Byte)
    (hne : hs ≠ []) (hwf : ∀ h ∈ hs, wfSHeader h = true) :
    headers (serSection hs ++ T) = PResult.ok T (hs.map parsedHeader, true) := by
  cases hs with
  | nil => exact absurd rfl hne
  | cons h hs2 =>
    have hwf1 := hwf h (by simp)
    cases hs2 with
    | nil =>
      have hshape : serSection [h] ++ T = serSHeader h ++ (13 :: 10 :: T) := by
        simp [serSection, CRLF]
      have hh := header_ser h (13 :: 10 :: T) hwf1
        (by simp [headHolds, isSpaceTab])
      rw [hshape]
      simp only [headers, hh, complete_eol_crlf]
      simp
    | cons h2 hs3 =>
      have hshape : serSection (h :: h2 :: hs3) ++ T =
          serSHeader h ++ (((h2 :: hs3).map serSHeader).flatten ++
            (13 :: 10 :: T)) := by
        simp [serSection, CRLF]
      have htail : ((h2 :: hs3).map serSHeader).flatten ++ (13 :: 10 :: T) =
          serSHeader h2 ++ ((hs3.map serSHeader).flatten ++ (13 :: 10 :: T)) := by
        simp
      have hhead : headHolds (fun x => !(isSpaceTab x))
          (((h2 :: hs3).map serSHeader).flatten ++ (13 :: 10 :: T)) = true := by
        rw [htail]
        exact headHolds_header_start h2 _ (hwf h2 (by simp))
      have hh := header_ser h _ hwf1 hhead
      have hce : complete_eol (((h2 :: hs3).map serSHeader).flatten ++
          (13 :: 10 :: T)) = PResult.error := by
        rw [htail]
        exact complete_eol_header_start h2 _ (hwf h2 (by simp))
      rw [hshape]
      simp only [headers, hh, hce]
      rw [headers_loop_ser (h2 :: hs3) _ _ _ T (by simp)
        (fun x hx => hwf x (by simp [hx])) (Nat.lt_succ_self _)]
      simp

/-! Helper lemmas for the value byte invariant and the nonempty output
invariant of the block driver. -/

theorem take_till_ok_mem (p : Byte → Bool) :
    ∀ (input rest taken : List Byte), take_till p input = PResult.ok rest taken →
      ∀ b ∈ taken, p b = false := by
  intro input
  induction input with
  | nil => intro rest taken h; simp [take_till] at h
  | cons a r ih =>
    intro rest taken h
    by_cases hp : p a
    · simp only [take_till, if_pos hp] at h
      cases h
      intro b hb
      simp at hb
    · simp only [take_till, if_neg hp] at h
      cases htr : take_till p r with
      | ok rest2 taken2 =>
        rw [htr] at h
        cases h
        intro b hb
        rcases List.mem_cons.mp hb with hb1 | hb2
        · subst hb1; simpa using hp
        · exact ih _ _ htr b hb2
      | incomplete => rw [htr] at h; cases h
      | error => rw [htr] at h; cases h

theorem value_bytes_ok_mem (input rest : List Byte)
    (vbt : List Byte × (List Byte × Option (List Byte)))
    (h : value_bytes input = PResult.ok rest vbt) :
    ∀ b ∈ vbt.1, is_eol b = false := by
  cases htt : take_till is_eol input with
  | ok r1 tk =>
    cases hfe : folding_or_eol r1 with
    | ok r2 t2 =>
      simp only [value_bytes, htt, hfe] at h
      cases h
      exact take_till_ok_mem is_eol input r1 tk htt
    | incomplete => simp [value_bytes, htt, hfe] at h
    | error => simp [value_bytes, htt, hfe] at h
  | incomplete => simp [value_bytes, htt] at h
  | error => simp [value_bytes, htt] at h

theorem mem_append_space (acc vb : List Byte)
    (hacc : ∀ b ∈ acc, is_eol b = false) (hvb : ∀ b ∈ vb, is_eol b = false) :
    ∀ b ∈ acc ++ 32 :: vb, is_eol b = false := by
  intro b hb
  rcases List.mem_append.mp hb with h1 | h1
  · exact hacc b h1
  · rcases List.mem_cons.mp h1 with h2 | h2
    · subst h2; rfl
    · exact hvb b h2

theorem value_loop_ok_mem :
    ∀ (fuel : Nat) (acc i rest : List Byte) (v : Value),
      value_loop fuel acc i = PResult.ok rest v →
      (∀ b ∈ acc, is_eol b = false) → ∀ b ∈ v.value, is_eol b = false := by
  intro fuel
  induction fuel with
  | zero => intro acc i rest v h _; simp [value_loop] at h
  | succ f ih =>
    intro acc i rest v h hacc
    cases hvb : value_bytes i with
    | ok r1 vbt =>
      have hmem := value_bytes_ok_mem i r1 vbt hvb
      obtain ⟨vb, e, fold⟩ := vbt
      cases fold with
      | none =>
        simp only [value_loop, hvb] at h
        cases h
        exact mem_append_space acc vb hacc hmem
      | some w =>
        simp only [value_loop, hvb] at h
        exact ih (acc ++ 32 :: vb) r1 rest v h (mem_append_space acc vb hacc hmem)
    | incomplete => simp [value_loop, hvb] at h
    | error => simp [value_loop, hvb] at h

theorem value_ok_mem (input rest : List Byte) (v : Value)
    (h : value input = PResult.ok rest v) : ∀ b ∈ v.value, is_eol b = false := by
  cases hvb : value_bytes input with
  | ok r1 vbt =>
    have hmem := value_bytes_ok_mem input r1 vbt hvb
    obtain ⟨vb, e, fold⟩ := vbt
    cases fold with
    | none =>
      simp only [value, hvb] at h
      cases h
      exact hmem
    | some w =>
      simp only [value, hvb] at h
      exact value_loop_ok_mem (r1.length + 1) vb r1 rest v h hmem
  | incomplete => simp [value, hvb] at h
  | error => simp [value, hvb] at h

theorem headers_loop_ne_nil :
    ∀ (fuel : Nat) (firstRest : List Byte) (out : List Header)
      (i rest : List Byte) (hs : List Header) (t : Bool),
      headers_loop fuel firstRest out i = PResult.ok rest (hs, t) →
      out ≠ [] → hs ≠ [] := by
  intro fuel
  induction fuel with
  | zero => intro _ _ _ _ _ _ h _; simp [headers_loop] at h
  | succ f ih =>
    intro firstRest out i rest hs t h hout
    cases hh : header i with
    | ok r1 hd =>
      cases hce : complete_eol r1 with
      | ok r2 e =>
        simp only [headers_loop, hh, hce] at h
        cases h
        simp
      | incomplete =>
        simp only [headers_loop, hh, hce] at h
        exact ih firstRest (out ++ [hd]) r1 rest hs t h (by simp)
      | error =>
        simp only [headers_loop, hh, hce] at h
        exact ih firstRest (out ++ [hd]) r1 rest hs t h (by simp)
    | incomplete =>
      simp only [headers_loop, hh] at h
      cases h
      exact hout
    | error => simp [headers_loop, hh] at h

theorem space0_all_ws (l : List Byte) (h : ∀ x ∈ l, isSpaceTab x = true) :
    space0 l = PResult.incomplete := by
  induction l with
  | nil => rfl
  | cons b r ih =>
    have hb := h b (by simp)
    have ih2 := ih (fun x hx => h x (by simp [hx]))
    simp [space0, hb, ih2]

theorem space0_exists_ok (l : List Byte) :
    ∀ (x : Byte), x ∈ l → isSpaceTab x = false →
      ∃ rest taken, space0 l = PResult.ok rest taken := by
  induction l with
  | nil => intro x hx _; simp at hx
  | cons b r ih =>
    intro x hx hxf
    by_cases hb : isSpaceTab b = true
    · have hxr : x ∈ r := by
        rcases List.mem_cons.mp hx with h1 | h1
        · subst h1; simp [hb] at hxf
        · exact h1
      obtain ⟨rest, taken, hr⟩ := ih x hxr hxf
      exact ⟨rest, b :: taken, by simp [space0, hb, hr]⟩
    · have hb2 : isSpaceTab b = false := by simpa using hb
      exact ⟨b :: r, [], by simp [space0, hb2]⟩

/-! Claim theorems. -/

/-- C1 code divergence: after two headers have been accepted and the
third Header Recognizer attempt signals incomplete, the Block Driver
returns as remainder the input from just after the FIRST accepted
header, so the bytes of the second accepted header reappear in the
returned remainder; the claim says the remainder is exactly the input
remaining after the last accepted header, here e:. -/
theorem c1_stale_remainder_bug :
    headers [97, 58, 98, 13, 10, 99, 58, 100, 13, 10, 101, 58] =
      PResult.ok [99, 58, 100, 13, 10, 101, 58]
        ([⟨⟨[97], 0⟩, ⟨[98], 0⟩⟩, ⟨⟨[99], 0⟩, ⟨[100], 0⟩⟩], false) ∧
    ([99, 58, 100, 13, 10, 101, 58] : List Byte) ≠ [101, 58] := by decide

/-- C2 code divergence: splitting the section a:b CR LF c:d CR LF e:f
CR LF CR LF after byte twelve, the first call returns the stale
remainder c:d CR LF e: together with the headers (a,b) and (c,d);
re-feeding that remainder with the rest of the section re-derives the
header (c,d), so the concatenation of the two calls differs from
parsing the whole section in one call. -/
theorem c2_feed_splitting_bug :
    headers [97, 58, 98, 13, 10, 99, 58, 100, 13, 10, 101, 58] =
      PResult.ok [99, 58, 100, 13, 10, 101, 58]
        ([⟨⟨[97], 0⟩, ⟨[98], 0⟩⟩, ⟨⟨[99], 0⟩, ⟨[100], 0⟩⟩], false) ∧
    headers ([99, 58, 100, 13, 10, 101, 58] ++ [102, 13, 10, 13, 10]) =
      PResult.ok []
        ([⟨⟨[99], 0⟩, ⟨[100], 0⟩⟩, ⟨⟨[101], 0⟩, ⟨[102], 0⟩⟩], true) ∧
    headers ([97, 58, 98, 13, 10, 99, 58, 100, 13, 10, 101, 58] ++
        [102, 13, 10, 13, 10]) =
      PResult.ok []
        ([⟨⟨[97], 0⟩, ⟨[98], 0⟩⟩, ⟨⟨[99], 0⟩, ⟨[100], 0⟩⟩,
          ⟨⟨[101], 0⟩, ⟨[102], 0⟩⟩], true) ∧
    ([⟨⟨[97], 0⟩, ⟨[98], 0⟩⟩, ⟨⟨[99], 0⟩, ⟨[100], 0⟩⟩] ++
        [⟨⟨[99], 0⟩, ⟨[100], 0⟩⟩, ⟨⟨[101], 0⟩, ⟨[102], 0⟩⟩] : List Header) ≠
      [⟨⟨[97], 0⟩, ⟨[98], 0⟩⟩, ⟨⟨[99], 0⟩, ⟨[100], 0⟩⟩,
        ⟨⟨[101], 0⟩, ⟨[102], 0⟩⟩] := by decide

/-- C3 counterexample: the valid section k:v LF (header line ended by
the bare LF terminator) closed by the bare CR blank line, followed by
the trailing bytes CR LF X, is re-segmented by the greedy four-byte
terminator LF CR CR LF, so headers reports terminator_seen = false with
remainder X instead of true with remainder CR LF X as the claim
requires. -/
theorem c3_counterexample :
    headers [107, 58, 118, 10, 13, 13, 10, 88] =
      PResult.ok [88] ([⟨⟨[107], 0⟩, ⟨[118], 0⟩⟩], false) ∧
    headers [107, 58, 118, 10, 13, 13, 10, 88] ≠
      PResult.ok [13, 10, 88] ([⟨⟨[107], 0⟩, ⟨[118], 0⟩⟩], true) := by decide

/-- C3 (amended): for every nonempty well-formed header section whose
line terminators (including the blank line) are all CR LF, followed by
arbitrary trailing bytes, headers succeeds, returns every header of the
section in order, terminator_seen = true, and exactly the trailing
bytes as remainder. -/
theorem c3_crlf_section_with_trailing (hs : List SHeader) (trailing : List Byte)
    (hne : hs ≠ []) (hwf : ∀ h ∈ hs, wfSHeader h = true) :
    headers (serSection hs ++ trailing) =
      PResult.ok trailing (hs.map parsedHeader, true) :=
  headers_ser hs trailing hne hwf

/-- C3 witness: a two-header section (one with separator whitespace and
a folded value line, one with a zero-length name) with trailing bytes
X Y. -/
theorem c3_crlf_section_with_trailing_witness :
    headers (serSection [⟨[107, 49], [32], [118, 49], [([32, 9], [119])]⟩,
        ⟨[], [], [118, 50], []⟩] ++ [88, 89]) =
      PResult.ok [88, 89]
        ([⟨⟨[107, 49], 0⟩, ⟨[118, 49, 32, 119], 0⟩⟩,
          ⟨⟨[], 0⟩, ⟨[118, 50], 0⟩⟩], true) := by
  rw [c3_crlf_section_with_trailing
    [⟨[107, 49], [32], [118, 49], [([32, 9], [119])]⟩, ⟨[], [], [118, 50], []⟩]
    [88, 89] (by decide) (by decide)]
  rfl

/-- C4: Scenario A: parsing k1:v1 CR LF :v2 CR LF SP v2+ CR LF k3: SP v3
CR LF CR LF returns exactly the three headers (k1, v1), (empty name,
v2 SP v2+), (k3, v3) in order, terminator_seen = true, and an empty
remainder. -/
theorem c4_scenario_a :
    headers [107, 49, 58, 118, 49, 13, 10, 58, 118, 50, 13, 10, 32, 118, 50,
        43, 13, 10, 107, 51, 58, 32, 118, 51, 13, 10, 13, 10] =
      PResult.ok []
        ([⟨⟨[107, 49], 0⟩, ⟨[118, 49], 0⟩⟩,
          ⟨⟨[], 0⟩, ⟨[118, 50, 32, 118, 50, 43], 0⟩⟩,
          ⟨⟨[107, 51], 0⟩, ⟨[118, 51], 0⟩⟩], true) := by decide

/-- C5 counterexample: the Header Recognizer does not succeed on the
exact input :v2 CR LF; the buffer ends at the terminator, a folded
continuation cannot be ruled out, and the result is incomplete, not a
parsed header. -/
theorem c5_counterexample :
    header [58, 118, 50, 13, 10] = PResult.incomplete ∧
    ¬ ∃ (rest : List Byte) (hd : Header),
        header [58, 118, 50, 13, 10] = PResult.ok rest hd := by
  refine ⟨by decide, ?_⟩
  rintro ⟨rest, hd, he⟩
  rw [show header [58, 118, 50, 13, 10] = PResult.incomplete from by decide] at he
  exact PResult.noConfusion he

/-- C5 (amended): once one more non-whitespace byte follows the
terminator (here the blank line ending the section), the Header
Recognizer succeeds on :v2 CR LF with a zero-length name and value
bytes v2. -/
theorem c5_zero_length_name :
    header [58, 118, 50, 13, 10, 13, 10] =
      PResult.ok [13, 10] ⟨⟨[], 0⟩, ⟨[118, 50], 0⟩⟩ := by decide

/-- C6 counterexample: on an input that is exactly a bare CR LF
terminator followed by CR LF, the Block Driver does not return an empty
header sequence with terminator_seen = true; it signals incomplete,
because it unconditionally tries to parse a first header. -/
theorem c6_counterexample :
    headers [13, 10, 13, 10] = PResult.incomplete ∧
    headers [13, 10, 13, 10] ≠ PResult.ok [13, 10] ([], true) := by decide

/-- C6 (amended): the Block Driver never returns an empty header
sequence: every successful call has parsed at least one header before
the section terminator is recognized, so an empty section is never
reported. -/
theorem c6_no_empty_section (input rest : List Byte) (hs : List Header)
    (t : Bool) (h : headers input = PResult.ok rest (hs, t)) : hs ≠ [] := by
  cases hh : header input with
  | ok r1 hd =>
    cases hce : complete_eol r1 with
    | ok r2 e =>
      simp only [headers, hh, hce] at h
      cases h
      simp
    | incomplete =>
      simp only [headers, hh, hce] at h
      exact headers_loop_ne_nil (r1.length + 1) r1 [hd] r1 rest hs t h (by simp)
    | error =>
      simp only [headers, hh, hce] at h
      exact headers_loop_ne_nil (r1.length + 1) r1 [hd] r1 rest hs t h (by simp)
  | incomplete => simp [headers, hh] at h
  | error => simp [headers, hh] at h

/-- C6 witness: the parse of a:b CR LF CR LF returns a nonempty header
sequence. -/
theorem c6_no_empty_section_witness :
    ([⟨⟨[97], 0⟩, ⟨[98], 0⟩⟩] : List Header) ≠ [] :=
  c6_no_empty_section [97, 58, 98, 13, 10, 13, 10] []
    [⟨⟨[97], 0⟩, ⟨[98], 0⟩⟩] true (by decide)

/-- C7 counterexample: on the single whitespace byte input the Name
Recognizer does not fail hard; the buffer ends inside the whitespace
run and the result is incomplete, contradicting the claim that leading
whitespace fails immediately regardless of where the buffer ends. -/
theorem c7_counterexample :
    name [32] = PResult.incomplete ∧ name [32] ≠ PResult.error := by decide

/-- C7 (amended): when the first byte is horizontal whitespace the Name
Recognizer fails hard exactly when the buffer also holds some
non-whitespace byte; when the buffer ends inside the whitespace run the
result is incomplete instead. -/
theorem c7_leading_whitespace (b : Byte) (r : List Byte)
    (hb : isSpaceTab b = true) :
    ((∃ c ∈ b :: r, isSpaceTab c = false) → name (b :: r) = PResult.error) ∧
    ((∀ c ∈ b :: r, isSpaceTab c = true) → name (b :: r) = PResult.incomplete) := by
  constructor
  · rintro ⟨c, hc, hcf⟩
    have hcr : c ∈ r := by
      rcases List.mem_cons.mp hc with h1 | h1
      · subst h1; simp [hb] at hcf
      · exact h1
    obtain ⟨rest, taken, hsp⟩ := space0_exists_ok r c hcr hcf
    simp [name, space1, hb, hsp]
  · intro hall
    have hs0 : space0 r = PResult.incomplete :=
      space0_all_ws r (fun x hx => hall x (by simp [hx]))
    simp [name, space1, hb, hs0]

/-- C7 witness: whitespace then a letter fails hard; whitespace only is
incomplete. -/
theorem c7_leading_whitespace_witness :
    name [32, 97] = PResult.error ∧ name [9, 32] = PResult.incomplete :=
  ⟨(c7_leading_whitespace 32 [97] (by decide)).1 ⟨97, by decide, by decide⟩,
   (c7_leading_whitespace 9 [32] (by decide)).2 (by decide)⟩

/-- C8: whenever the Value Recognizer succeeds, the returned value bytes
contain no CR and no LF byte; and a value line followed by folded
continuation lines parses to the first line joined to each continuation
content by exactly one space, with the entire whitespace run after each
terminator stripped, however long it is. -/
theorem c8_value_no_eol_and_fold_merge :
    (∀ (input rest : List Byte) (v : Value),
      value input = PResult.ok rest v → ∀ b ∈ v.value, is_eol b = false) ∧
    (∀ (line1 : List Byte) (fs : List (List Byte × List Byte))
        (rest : List Byte),
      noEol line1 = true → (∀ p ∈ fs, wfFold p = true) →
      headHolds (fun b => !(isSpaceTab b)) rest = true →
      value (line1 ++ (13 :: 10 :: (serFolds fs ++ rest))) =
        PResult.ok rest ⟨line1 ++ (fs.map (fun p => 32 :: p.2)).flatten, 0⟩) :=
  ⟨value_ok_mem, value_ser⟩

/-- C8 witness: the value v CR LF SP TAB w CR LF : merges to v SP w, and
a value byte of a successful parse is not a terminator byte. -/
theorem c8_value_no_eol_and_fold_merge_witness :
    value [118, 13, 10, 32, 9, 119, 13, 10, 58] =
      PResult.ok [58] ⟨[118, 32, 119], 0⟩ ∧
    is_eol 118 = false := by
  constructor
  · have h := c8_value_no_eol_and_fold_merge.2 [118] [([32, 9], [119])] [58]
      (by decide) (by decide) (by decide)
    rw [show ([118] ++ (13 :: 10 :: (serFolds [([32, 9], [119])] ++ [58])) :
        List Byte) = [118, 13, 10, 32, 9, 119, 13, 10, 58] from rfl] at h
    rw [h]
    rfl
  · exact c8_value_no_eol_and_fold_merge.1 [118, 13, 10, 88] [88] ⟨[118], 0⟩
      (by decide) 118 (by decide)

/-- C9: Scenario B: parsing the truncated input k1:v1 CR LF k2:v2 CR
returns exactly the header (k1, v1), terminator_seen = false, and the
remainder k2:v2 CR. -/
theorem c9_scenario_b :
    headers [107, 49, 58, 118, 49, 13, 10, 107, 50, 58, 118, 50, 13] =
      PResult.ok [107, 50, 58, 118, 50, 13]
        ([⟨⟨[107, 49], 0⟩, ⟨[118, 49], 0⟩⟩], false) := by decide

/-- C10 counterexample: on input a CR LF b : v CR LF X headers does
return one header whose name is the bytes a CR LF b, but that name is
four bytes long, not five as the claim states. -/
theorem c10_counterexample :
    headers [97, 13, 10, 98, 58, 118, 13, 10, 88] =
      PResult.ok [88] ([⟨⟨[97, 13, 10, 98], 0⟩, ⟨[118], 0⟩⟩], false) ∧
    ([97, 13, 10, 98] : List Byte).length ≠ 5 := by decide

/-- C10 (amended): for some input headers succeeds and returns a header
whose name bytes contain CR and LF: a physical line with no colon is
absorbed, together with its terminator, into the following header name;
on input a CR LF b : v CR LF X the single returned header has the
four-byte name a CR LF b and value v. -/
theorem c10_no_colon_line_absorbed :
    headers [97, 13, 10, 98, 58, 118, 13, 10, 88] =
      PResult.ok [88] ([⟨⟨[97, 13, 10, 98], 0⟩, ⟨[118], 0⟩⟩], false) ∧
    (13 ∈ ([97, 13, 10, 98] : List Byte) ∧
      10 ∈ ([97, 13, 10, 98] : List Byte) ∧
      ([97, 13, 10, 98] : List Byte).length = 4) := by decide

end TestHeaders
